import Mathlib

/-!
Shallow embedding of the retrieval-and-scoring engine of
`biblindex/annotations/baseline.py`: the pairwise Tesserae scorer
(`tesserae_score` with its two distance heuristics `get_d_min_freq` and
`get_d_max_dist`) and the candidate ranker / evaluation loop
(`tesserae_baseline`).

Modelling conventions:
* Tokens are opaque string units with equality-only semantics; we model them
  as naturals.
* Python floats are idealised as exact rationals.
* `math.log` is not applied: a produced score is represented by the positive
  rational argument of the log (constructor `Score.logR`).  Since the real
  logarithm is strictly monotone with `log 1 = 0`, every comparison the
  program makes between scores (sorting, the `> 0` filter) is faithfully
  mirrored by the corresponding comparison of the log arguments, with the
  literal score `0` (returned at the matching gate) corresponding to
  argument `1`.
* Python `dict` becomes an association list; a failed lookup raises
  `KeyError` carrying the key, modelled by `Except` with `Err.keyError`.
* Python `set` iteration order is unspecified; sets of tokens are modelled
  canonically as duplicate-free lists in ascending token order.
* `np.argsort` (default kind) gives no stability guarantee on ties; it is
  modelled as the deterministic stable ascending argsort.
-/

/-- A Token: an opaque unit with equality semantics only, modelled as a natural. -/
abbrev Token : Type := ℕ

/-- A Segment: an ordered sequence of Tokens. -/
abbrev Segment : Type := List Token

/-- A Frequency Map (Python dict) from tokens to exact rational weights. -/
abbrev FreqMap : Type := List (Token × ℚ)

/-- The Python exceptions the scoring code can raise:
`KeyError` (dict lookup of a missing token, carrying the key),
`ZeroDivisionError` (division by an exact zero),
`ValueError` (unpacking fewer than two values in `a, b, *_ = ...`), and
the `ValueError: math domain error` of `math.log` on a non-positive argument. -/
inductive Err : Type where
  | keyError (w : Token)
  | zeroDivisionError
  | valueError
  | mathDomainError
deriving DecidableEq

/-- The two scoring methods accepted by `tesserae_score`. -/
inductive Method : Type where
  | min_freq
  | max_dist
deriving DecidableEq

/-- A score value as the Python code produces it: either the literal int `0`
returned when fewer than two tokens match, or `math.log r` for the computed
positive rational ratio `r`, kept unevaluated as `logR r`. -/
inductive Score : Type where
  | int0
  | logR (r : ℚ)
deriving DecidableEq

/-- The exponential of the real value of a score: `int0` (real value `0`)
maps to `1`, and `logR r` (real value `log r`) maps to `r`.  Because the real
log is strictly monotone with `log 1 = 0`, two scores compare (in the reals)
exactly as their `ratioOf` images compare, and a score is positive exactly
when `1 < ratioOf`. -/
def Score.ratioOf : Score → ℚ
  | .int0 => 1
  | .logR r => r

/-- The score is non-negative as a real number: `log r ≥ 0 ↔ r ≥ 1`, and the
literal `0` is non-negative (`ratioOf .int0 = 1`). -/
def Score.nonneg (sc : Score) : Prop := 1 ≤ sc.ratioOf

instance (sc : Score) : Decidable sc.nonneg := by
  unfold Score.nonneg; infer_instance

instance {ε α : Type} [DecidableEq ε] [DecidableEq α] : DecidableEq (Except ε α) := fun a b =>
  match a, b with
  | .error e1, .error e2 =>
    if h : e1 = e2 then .isTrue (by rw [h]) else .isFalse (by intro hh; cases hh; exact h rfl)
  | .ok v1, .ok v2 =>
    if h : v1 = v2 then .isTrue (by rw [h]) else .isFalse (by intro hh; cases hh; exact h rfl)
  | .error _, .ok _ => .isFalse (by intro hh; cases hh)
  | .ok _, .error _ => .isFalse (by intro hh; cases hh)

/-- Token `w` is present in frequency map `f` with a positive weight (the
data-model well-formedness condition for Frequency Maps). -/
def covPos (f : FreqMap) (w : Token) : Prop :=
  ∃ q, List.lookup w f = some q ∧ 0 < q

instance (f : FreqMap) (w : Token) : Decidable (covPos f w) :=
  match h : List.lookup w f with
  | none => .isFalse (fun ⟨_, hq, _⟩ => by rw [h] at hq; cases hq)
  | some q =>
    if hq : 0 < q then .isTrue ⟨q, h, hq⟩
    else .isFalse (fun ⟨q2, hq2, hpos⟩ => by
      rw [h] at hq2; cases hq2; exact hq hpos)

/-- Insert `a` into `l`, placing it before the first element `b` with
`le a b = true`.  Building block of the stable insertion sort `sortB`. -/
def sInsert {α : Type} (le : α → α → Bool) (a : α) : List α → List α
  | [] => [a]
  | b :: l => if le a b then a :: b :: l else b :: sInsert le a l

/-- Stable insertion sort by the boolean comparison `le`: models Python
`sorted` (guaranteed stable) and, on index lists, the ascending argsort. -/
def sortB {α : Type} (le : α → α → Bool) : List α → List α
  | [] => []
  | a :: l => sInsert le a (sortB le l)

/-- The Python set `set(s1).intersection(set(s2))`, modelled canonically as
the duplicate-free list of common tokens in ascending token order
(Python set iteration order is unspecified). -/
def matchingTokens (s1 s2 : Segment) : List Token :=
  sortB (fun a b => decide (a ≤ b)) (s1.dedup.filter (fun w => decide (w ∈ s2)))

/-- The comprehension sum `sum([1 / freqs[w] for w in ws])`: left to right,
each lookup may raise `KeyError` and each division by an exact zero weight
raises `ZeroDivisionError`. -/
def invSum (f : FreqMap) : List Token → Except Err ℚ
  | [] => .ok 0
  | w :: ws =>
    match List.lookup w f with
    | none => .error (.keyError w)
    | some q =>
      if q = 0 then .error .zeroDivisionError
      else
        match invSum f ws with
        | .error e => .error e
        | .ok r => .ok (1 / q + r)

/-- Look up every token of `ws` in `f` (the key computations of
`sorted(set(s), key=lambda w: freqs[w])`), raising `KeyError` on the first
missing token. -/
def lookupAll (f : FreqMap) : List Token → Except Err (List (Token × ℚ))
  | [] => .ok []
  | w :: ws =>
    match List.lookup w f with
    | none => .error (.keyError w)
    | some q =>
      match lookupAll f ws with
      | .error e => .error e
      | .ok k => .ok ((w, q) :: k)

/-- `get_d_min_freq(s, freqs)`: sort the distinct tokens of `s` by ascending
frequency (stable sort; the distinct tokens in first-occurrence order), take
the two least frequent `a, b` (raising `ValueError` if there are fewer than
two distinct tokens), and return `abs(s.index(a) - s.index(b))`, the gap
between their first occurrences. -/
def get_d_min_freq (s : Segment) (freqs : FreqMap) : Except Err ℕ :=
  match lookupAll freqs s.dedup with
  | .error e => .error e
  | .ok keyed =>
    match sortB (fun p q => decide (p.2 ≤ q.2)) keyed with
    | a :: b :: _ => .ok ((s.indexOf a.1 : ℤ) - (s.indexOf b.1 : ℤ)).natAbs
    | _ => .error .valueError

/-- `get_d_max_dist(s, matching)`: the greatest distance `abs(i - j)` over
all position pairs `i < j` of `s` whose tokens both belong to `matching`
(the O(n²) double loop of the source), `0` if there is no such pair. -/
def get_d_max_dist (s : Segment) (matching : List Token) : ℕ :=
  s.enum.foldl
    (fun d p =>
      s.enum.foldl
        (fun d2 q =>
          if p.1 < q.1 ∧ p.2 ∈ matching ∧ q.2 ∈ matching then max d2 (q.1 - p.1)
          else d2)
        d)
    0

/-- The pair `(d_t, d_s)` selected by the `if/elif` method dispatch of
`tesserae_score`: `min_freq` uses `get_d_min_freq` on each segment with its
own frequency map (target first, so its exception surfaces first), `max_dist`
uses `get_d_max_dist` against the matching set. -/
def distPair (s1 s2 : Segment) (freqs1 freqs2 : FreqMap) (matching : List Token) :
    Method → Except Err (ℕ × ℕ)
  | .min_freq =>
    match get_d_min_freq s1 freqs1 with
    | .error e => .error e
    | .ok dt =>
      match get_d_min_freq s2 freqs2 with
      | .error e => .error e
      | .ok ds => .ok (dt, ds)
  | .max_dist => .ok (get_d_max_dist s1 matching, get_d_max_dist s2 matching)

/-- `tesserae_score(s1, s2, freqs1, freqs2, method)`: if fewer than two
tokens match, return the int `0`; otherwise compute `f_t`, `f_s` (the
inverse-frequency sums over the matching tokens, in that order), the distance
pair for the selected method, and `math.log((f_t + f_s) / (d_t + d_s))` —
raising `ZeroDivisionError` when `d_t + d_s == 0` and the math domain error
of `log` when the ratio is not positive. -/
def tesserae_score (s1 s2 : Segment) (freqs1 freqs2 : FreqMap) (method : Method) :
    Except Err Score :=
  let matching := matchingTokens s1 s2
  if matching.length < 2 then .ok .int0
  else
    match invSum freqs1 matching with
    | .error e => .error e
    | .ok ft =>
      match invSum freqs2 matching with
      | .error e => .error e
      | .ok fs =>
        match distPair s1 s2 freqs1 freqs2 matching method with
        | .error e => .error e
        | .ok (dt, ds) =>
          if dt + ds = 0 then .error .zeroDivisionError
          else
            let r := (ft + fs) / ((dt + ds : ℕ) : ℚ)
            if r ≤ 0 then .error .mathDomainError
            else .ok (.logR r)

/-- The real-order key by which the candidate scores at position `i` are
compared (see `Score.ratioOf`). -/
def scoreKey (tscores : List Score) (i : ℕ) : ℚ := (tscores.getD i .int0).ratioOf

/-- `np.argsort(tscores)`: the indices of `tscores` in ascending score order,
modelled as the stable ascending argsort (NumPy's default sort kind makes no
stability promise on ties). -/
def argsort (tscores : List Score) : List ℕ :=
  sortB (fun i j => decide (scoreKey tscores i ≤ scoreKey tscores j))
    (List.range tscores.length)

/-- `np.argsort(tscores)[::-1][:at]` followed by the
`[idx for idx in idxs if tscores[idx] > 0]` filter of the source: the top
`at` candidate indices by descending score, keeping only strictly positive
scores (`score > 0 ↔ 1 < ratioOf`). -/
def rankIdxs (tscores : List Score) (at_ : ℕ) : List ℕ :=
  ((argsort tscores).reverse.take at_).filter (fun i => decide (1 < scoreKey tscores i))

/-- `len(set(s1).intersection(set(s2)))`. -/
def overlapSize (s1 s2 : Segment) : ℕ := (matchingTokens s1 s2).length

/-- One output row of `tesserae_baseline`: the list
`[(idx, tscores[idx], len(set(s1).intersection(set(trg[idx])))) for idx in idxs]`. -/
def rowOutput (s1 : Segment) (trg : List Segment) (tscores : List Score) (idxs : List ℕ) :
    List (ℕ × Score × ℕ) :=
  idxs.map (fun i => (i, tscores.getD i .int0, overlapSize s1 (trg.getD i [])))

/-- The score list `[tesserae_score(s1, s2, src_freqs, trg_freqs, m) for s2 in trg]`,
propagating the first raised exception. -/
def candScores (s1 : Segment) (sf tf : FreqMap) (m : Method) :
    List Segment → Except Err (List Score)
  | [] => .ok []
  | s2 :: rest =>
    match tesserae_score s1 s2 sf tf m with
    | .error e => .error e
    | .ok sc =>
      match candScores s1 sf tf m rest with
      | .error e => .error e
      | .ok scs => .ok (sc :: scs)

/-- The main loop of `tesserae_baseline` over `enumerate(src)`: for each
`(idx, s1)` compute the candidate scores with method `m`, rank them, record
the hit indicator `1 if idx in idxs else 0` and the output row. -/
def baselineRows (trg : List Segment) (sf tf : FreqMap) (at_ : ℕ) (m : Method) :
    List (ℕ × Segment) → Except Err (List (ℕ × List (ℕ × Score × ℕ)))
  | [] => .ok []
  | (idx, s1) :: rest =>
    match candScores s1 sf tf m trg with
    | .error e => .error e
    | .ok tscores =>
      let idxs := rankIdxs tscores at_
      match baselineRows trg sf tf at_ m rest with
      | .error e => .error e
      | .ok tail =>
        .ok ((if idx ∈ idxs then 1 else 0, rowOutput s1 trg tscores idxs) :: tail)

/-- `tesserae_baseline(src, trg, src_freqs, trg_freqs, at, method)` exactly as
written in the source: the inner call `tesserae_score(s1, s2, src_freqs,
trg_freqs)` does NOT pass `method` along, so every score is computed with the
Python default `min_freq` and the `method` parameter is dead.  Returns the
recall `sum(scores) / len(scores)` (raising `ZeroDivisionError` on an empty
`src`) together with the per-target output rows. -/
def tesserae_baseline (src trg : List Segment) (src_freqs trg_freqs : FreqMap) (at_ : ℕ)
    (method : Method) : Except Err (ℚ × List (List (ℕ × Score × ℕ))) :=
  match baselineRows trg src_freqs trg_freqs at_ .min_freq src.enum with
  | .error e => .error e
  | .ok rows =>
    if src.length = 0 then .error .zeroDivisionError
    else .ok ((((rows.map Prod.fst).sum : ℕ) : ℚ) / (src.length : ℚ), rows.map Prod.snd)

/-- Modelled from the spec: the Evaluation Loop as the spec describes it,
"compute the Pairwise Scorer score against every candidate ... using that
selected method" — identical to `tesserae_baseline` except that the selected
`method` is forwarded to `tesserae_score`.  The source omits the forwarding;
this definition is the intended behaviour used to exhibit the divergence. -/
def tesserae_baseline_spec (src trg : List Segment) (src_freqs trg_freqs : FreqMap) (at_ : ℕ)
    (method : Method) : Except Err (ℚ × List (List (ℕ × Score × ℕ))) :=
  match baselineRows trg src_freqs trg_freqs at_ method src.enum with
  | .error e => .error e
  | .ok rows =>
    if src.length = 0 then .error .zeroDivisionError
    else .ok ((((rows.map Prod.fst).sum : ℕ) : ℚ) / (src.length : ℚ), rows.map Prod.snd)

/-! ### Lemmas about the stable insertion sort -/

theorem mem_sInsert {α : Type} (le : α → α → Bool) (a x : α) (l : List α) :
    x ∈ sInsert le a l ↔ x = a ∨ x ∈ l := by
  induction l with
  | nil => simp [sInsert]
  | cons b t ih =>
    cases hab : le a b with
    | true => simp [sInsert, hab]
    | false =>
      simp only [sInsert, hab]
      simp [ih]
      tauto

theorem sInsert_perm {α : Type} (le : α → α → Bool) (a : α) (l : List α) :
    List.Perm (sInsert le a l) (a :: l) := by
  induction l with
  | nil => exact List.Perm.refl _
  | cons b t ih =>
    cases hab : le a b with
    | true => simp [sInsert, hab]
    | false =>
      simp only [sInsert, hab, Bool.false_eq_true, if_false]
      exact (ih.cons b).trans (List.Perm.swap a b t)

theorem sortB_perm {α : Type} (le : α → α → Bool) (l : List α) :
    List.Perm (sortB le l) l := by
  induction l with
  | nil => exact List.Perm.refl _
  | cons a t ih => exact (sInsert_perm le a (sortB le t)).trans (ih.cons a)

theorem sortB_length {α : Type} (le : α → α → Bool) (l : List α) :
    (sortB le l).length = l.length :=
  (sortB_perm le l).length_eq

theorem sInsert_pairwise_le {α : Type} (le : α → α → Bool)
    (htot : ∀ x y, le x y = false → le y x = true)
    (htrans : ∀ x y z, le x y = true → le y z = true → le x z = true)
    (a : α) (l : List α) (hl : l.Pairwise (fun x y => le x y = true)) :
    (sInsert le a l).Pairwise (fun x y => le x y = true) := by
  induction l with
  | nil => simp [sInsert]
  | cons b t ih =>
    rcases List.pairwise_cons.1 hl with ⟨hb, ht⟩
    cases hab : le a b with
    | true =>
      simp only [sInsert, hab, if_true]
      refine List.pairwise_cons.2 ⟨?_, hl⟩
      intro x hx
      rcases List.mem_cons.1 hx with rfl | hx
      · exact hab
      · exact htrans a b x hab (hb x hx)
    | false =>
      simp only [sInsert, hab, Bool.false_eq_true, if_false]
      refine List.pairwise_cons.2 ⟨?_, ih ht⟩
      intro x hx
      rcases (mem_sInsert le a x t).1 hx with rfl | hx
      · exact htot _ b hab
      · exact hb x hx

theorem sortB_pairwise_le {α : Type} (le : α → α → Bool)
    (htot : ∀ x y, le x y = false → le y x = true)
    (htrans : ∀ x y z, le x y = true → le y z = true → le x z = true)
    (l : List α) :
    (sortB le l).Pairwise (fun x y => le x y = true) := by
  induction l with
  | nil => simp [sortB]
  | cons a t ih => exact sInsert_pairwise_le le htot htrans a _ ih

/-- The strict lexicographic order by score key, index order breaking ties:
the order in which the stable ascending argsort emits distinct indices. -/
def rLex (key : ℕ → ℚ) (i j : ℕ) : Prop :=
  key i < key j ∨ (key i = key j ∧ i < j)

theorem sInsert_rLex (key : ℕ → ℚ) (a : ℕ) (l : List ℕ)
    (hl : l.Pairwise (rLex key)) (ha : ∀ b ∈ l, a < b) :
    (sInsert (fun i j => decide (key i ≤ key j)) a l).Pairwise (rLex key) := by
  induction l with
  | nil => simp [sInsert]
  | cons b t ih =>
    rcases List.pairwise_cons.1 hl with ⟨hb, ht⟩
    cases hab : decide (key a ≤ key b) with
    | true =>
      have hab2 : key a ≤ key b := of_decide_eq_true hab
      simp only [sInsert, hab, if_true]
      refine List.pairwise_cons.2 ⟨?_, hl⟩
      intro x hx
      rcases List.mem_cons.1 hx with rfl | hx
      · rcases lt_or_eq_of_le hab2 with hlt | heq
        · exact Or.inl hlt
        · exact Or.inr ⟨heq, ha x (List.mem_cons_self x t)⟩
      · rcases hb x hx with hlt | ⟨heq, _⟩
        · exact Or.inl (lt_of_le_of_lt hab2 hlt)
        · rcases lt_or_eq_of_le (le_of_le_of_eq hab2 heq) with hlt | heq2
          · exact Or.inl hlt
          · exact Or.inr ⟨heq2, ha x (List.mem_cons_of_mem b hx)⟩
    | false =>
      have hba : key b < key a := lt_of_not_le (of_decide_eq_false hab)
      simp only [sInsert, hab, Bool.false_eq_true, if_false]
      refine List.pairwise_cons.2 ⟨?_, ih ht (fun c hc => ha c (List.mem_cons_of_mem b hc))⟩
      intro x hx
      rcases (mem_sInsert _ a x t).1 hx with rfl | hx
      · exact Or.inl hba
      · exact hb x hx

theorem sortB_rLex (key : ℕ → ℚ) (l : List ℕ) (hl : l.Pairwise (· < ·)) :
    (sortB (fun i j => decide (key i ≤ key j)) l).Pairwise (rLex key) := by
  induction l with
  | nil => simp [sortB]
  | cons a t ih =>
    rcases List.pairwise_cons.1 hl with ⟨ha, ht⟩
    exact sInsert_rLex key a _ (ih ht)
      (fun b hb => ha b ((sortB_perm _ t).mem_iff.1 hb))

theorem take_sublist_take {α : Type} : ∀ (l : List α) (m n : ℕ), m ≤ n →
    List.Sublist (l.take m) (l.take n)
  | _, 0, _, _ => by simp
  | [], _ + 1, _, _ => by simp
  | _ :: _, m + 1, 0, h => (Nat.not_succ_le_zero m h).elim
  | a :: t, m + 1, n + 1, h => by
    simp only [List.take_succ_cons]
    exact (take_sublist_take t m n (Nat.le_of_succ_le_succ h)).cons₂ a

/-! ### Lemmas about the canonical matching set -/

theorem mem_matchingTokens (s1 s2 : Segment) (w : Token) :
    w ∈ matchingTokens s1 s2 ↔ w ∈ s1 ∧ w ∈ s2 := by
  unfold matchingTokens
  rw [(sortB_perm _ _).mem_iff]
  simp [List.mem_filter, List.mem_dedup]

theorem nodup_matchingTokens (s1 s2 : Segment) : (matchingTokens s1 s2).Nodup :=
  (sortB_perm _ _).symm.nodup ((s1.nodup_dedup).filter _)

theorem sorted_matchingTokens (s1 s2 : Segment) :
    (matchingTokens s1 s2).Pairwise (· ≤ ·) := by
  have h := sortB_pairwise_le (fun a b : Token => decide (a ≤ b))
    (fun x y hxy => by
      simp only [decide_eq_false_iff_not, not_le] at hxy
      exact decide_eq_true (le_of_lt hxy))
    (fun x y z hxy hyz =>
      decide_eq_true (le_trans (of_decide_eq_true hxy) (of_decide_eq_true hyz)))
    (s1.dedup.filter (fun w => decide (w ∈ s2)))
  exact (h.imp (fun hab => of_decide_eq_true hab))

theorem matchingTokens_comm (s1 s2 : Segment) :
    matchingTokens s1 s2 = matchingTokens s2 s1 := by
  have hs1 : List.Sorted (· ≤ ·) (matchingTokens s1 s2) := sorted_matchingTokens s1 s2
  have hs2 : List.Sorted (· ≤ ·) (matchingTokens s2 s1) := sorted_matchingTokens s2 s1
  have hp : List.Perm (matchingTokens s1 s2) (matchingTokens s2 s1) := by
    refine (List.perm_ext_iff_of_nodup (nodup_matchingTokens s1 s2)
      (nodup_matchingTokens s2 s1)).2 (fun a => ?_)
    rw [mem_matchingTokens, mem_matchingTokens]
    tauto
  exact List.eq_of_perm_of_sorted hp hs1 hs2

theorem matchingTokens_length_le (s1 s2 : Segment) :
    (matchingTokens s1 s2).length ≤ s1.dedup.length := by
  unfold matchingTokens
  rw [sortB_length]
  exact List.length_filter_le _ _

theorem matchingTokens_length_le_right (s1 s2 : Segment) :
    (matchingTokens s1 s2).length ≤ s2.dedup.length := by
  rw [matchingTokens_comm]
  exact matchingTokens_length_le s2 s1

/-! ### Lemmas about the ranking pipeline -/

theorem argsort_pairwise (tscores : List Score) :
    (argsort tscores).Pairwise (rLex (scoreKey tscores)) :=
  sortB_rLex (scoreKey tscores) _ (List.pairwise_lt_range _)

theorem rankIdxs_pairwise (tscores : List Score) (at_ : ℕ) :
    (rankIdxs tscores at_).Pairwise (fun i j => rLex (scoreKey tscores) j i) := by
  unfold rankIdxs
  have h1 : (argsort tscores).reverse.Pairwise (fun i j => rLex (scoreKey tscores) j i) :=
    List.pairwise_reverse.2 (argsort_pairwise tscores)
  exact (h1.sublist (take_sublist_take _ _ _ (le_refl at_) |>.trans
    (List.take_sublist _ _))).sublist (List.filter_sublist _) |>.sublist (List.Sublist.refl _)

theorem rankIdxs_length_le (tscores : List Score) (at_ : ℕ) :
    (rankIdxs tscores at_).length ≤ at_ := by
  unfold rankIdxs
  refine le_trans (List.length_filter_le _ _) ?_
  rw [List.length_take]
  exact min_le_left _ _

theorem mem_rankIdxs_pos (tscores : List Score) (at_ i : ℕ) (h : i ∈ rankIdxs tscores at_) :
    1 < scoreKey tscores i := by
  unfold rankIdxs at h
  exact of_decide_eq_true (List.mem_filter.1 h).2

theorem rankIdxs_subset (tscores : List Score) {a1 a2 : ℕ} (h : a1 ≤ a2) :
    rankIdxs tscores a1 ⊆ rankIdxs tscores a2 := by
  unfold rankIdxs
  intro i hi
  rcases List.mem_filter.1 hi with ⟨hmem, hpos⟩
  exact List.mem_filter.2 ⟨(take_sublist_take _ a1 a2 h).subset hmem, hpos⟩

/-! ### Lemmas about frequency lookups and the inverse-frequency sums -/

theorem mem_of_lookup_eq_some {f : FreqMap} {w : Token} {q : ℚ}
    (h : List.lookup w f = some q) : (w, q) ∈ f := by
  induction f with
  | nil => cases h
  | cons p t ih =>
    rcases p with ⟨k, v⟩
    simp only [List.lookup] at h
    cases hwk : (w == k) with
    | true =>
      rw [hwk] at h
      cases h
      have : w = k := eq_of_beq hwk
      subst this
      exact List.mem_cons_self _ _
    | false =>
      rw [hwk] at h
      exact List.mem_cons_of_mem _ (ih h)

theorem invSum_ok (f : FreqMap) (l : List Token) (hcov : ∀ w ∈ l, covPos f w) :
    ∃ v, invSum f l = .ok v ∧ 0 ≤ v ∧ (l ≠ [] → 0 < v) := by
  induction l with
  | nil => exact ⟨0, rfl, le_refl 0, fun h => absurd rfl h⟩
  | cons w ws ih =>
    rcases hcov w (List.mem_cons_self w ws) with ⟨q, hq, hqpos⟩
    rcases ih (fun x hx => hcov x (List.mem_cons_of_mem w hx)) with ⟨v, hv, hv0, _⟩
    refine ⟨1 / q + v, ?_, ?_, ?_⟩
    · simp only [invSum, hq]
      rw [if_neg (ne_of_gt hqpos), hv]
    · exact add_nonneg (le_of_lt (one_div_pos.2 hqpos)) hv0
    · exact fun _ => add_pos_of_pos_of_nonneg (one_div_pos.2 hqpos) hv0

theorem invSum_keyError (f : FreqMap) (l : List Token)
    (hpos : ∀ p ∈ f, 0 < p.2)
    (hmiss : ∃ w ∈ l, List.lookup w f = none) :
    ∃ w ∈ l, List.lookup w f = none ∧ invSum f l = .error (.keyError w) := by
  induction l with
  | nil => rcases hmiss with ⟨w, hw, _⟩; cases hw
  | cons w ws ih =>
    cases hq : List.lookup w f with
    | none => exact ⟨w, List.mem_cons_self w ws, hq, by simp [invSum, hq]⟩
    | some q =>
      have hq0 : 0 < q := hpos (w, q) (mem_of_lookup_eq_some hq)
      have hmiss2 : ∃ x ∈ ws, List.lookup x f = none := by
        rcases hmiss with ⟨x, hx, hnone⟩
        rcases List.mem_cons.1 hx with rfl | hx
        · rw [hq] at hnone; cases hnone
        · exact ⟨x, hx, hnone⟩
      rcases ih hmiss2 with ⟨x, hx, hnone, herr⟩
      refine ⟨x, List.mem_cons_of_mem w hx, hnone, ?_⟩
      simp only [invSum, hq]
      rw [if_neg (ne_of_gt hq0), herr]

theorem lookupAll_ok (f : FreqMap) (l : List Token) (hcov : ∀ w ∈ l, covPos f w) :
    ∃ k, lookupAll f l = .ok k ∧ k.map Prod.fst = l := by
  induction l with
  | nil => exact ⟨[], rfl, rfl⟩
  | cons w ws ih =>
    rcases hcov w (List.mem_cons_self w ws) with ⟨q, hq, _⟩
    rcases ih (fun x hx => hcov x (List.mem_cons_of_mem w hx)) with ⟨k, hk, hmap⟩
    refine ⟨(w, q) :: k, ?_, ?_⟩
    · simp [lookupAll, hq, hk]
    · simp [hmap]

/-! ### Lemmas about the distance heuristics -/

theorem indexOf_ne_of_ne (s : List Token) (a b : Token) (ha : a ∈ s) (hb : b ∈ s)
    (hab : a ≠ b) : s.indexOf a ≠ s.indexOf b := by
  intro h
  apply hab
  have h1 := List.getElem_indexOf (List.indexOf_lt_length.2 ha)
  have h2 := List.getElem_indexOf (List.indexOf_lt_length.2 hb)
  rw [← h1, ← h2]
  simp only [h]

theorem indexOf_mem_enum (s : List Token) (x : Token) (hx : x ∈ s) :
    (s.indexOf x, x) ∈ s.enum := by
  have hlt : s.indexOf x < s.length := List.indexOf_lt_length.2 hx
  refine List.mem_enum_iff_getElem?.2 ?_
  rw [List.getElem?_eq_getElem hlt]
  exact congrArg some (List.getElem_indexOf hlt)

theorem get_d_min_freq_ok (s : Segment) (f : FreqMap)
    (hcov : ∀ w ∈ s, covPos f w) (h2 : 2 ≤ s.dedup.length) :
    ∃ d, get_d_min_freq s f = .ok d ∧ 1 ≤ d := by
  rcases lookupAll_ok f s.dedup (fun w hw => hcov w (List.mem_dedup.1 hw)) with ⟨k, hk, hmap⟩
  have hlen : (sortB (fun p q => decide (p.2 ≤ q.2)) k).length = s.dedup.length := by
    rw [sortB_length, ← hmap, List.length_map]
  rcases hm : sortB (fun p q => decide (p.2 ≤ q.2)) k with _ | ⟨a, _ | ⟨b, t⟩⟩
  · exfalso; rw [hm] at hlen; simp at hlen; omega
  · exfalso; rw [hm] at hlen; simp at hlen; omega
  · have hperm : List.Perm ((a :: b :: t).map Prod.fst) s.dedup := by
      rw [← hm, ← hmap]
      exact (sortB_perm _ k).map Prod.fst
    simp only [List.map_cons] at hperm
    have hnod : (a.1 :: b.1 :: t.map Prod.fst).Nodup := hperm.symm.nodup s.nodup_dedup
    have hab : a.1 ≠ b.1 := by
      rcases List.nodup_cons.1 hnod with ⟨hna, _⟩
      exact fun h => hna (h ▸ List.mem_cons_self _ _)
    have hamem : a.1 ∈ s := List.mem_dedup.1 (hperm.subset (List.mem_cons_self _ _))
    have hbmem : b.1 ∈ s := List.mem_dedup.1 (hperm.subset
      (List.mem_cons_of_mem _ (List.mem_cons_self _ _)))
    refine ⟨((s.indexOf a.1 : ℤ) - (s.indexOf b.1 : ℤ)).natAbs,
      by simp [get_d_min_freq, hk, hm], ?_⟩
    have hne : s.indexOf a.1 ≠ s.indexOf b.1 := indexOf_ne_of_ne s a.1 b.1 hamem hbmem hab
    have hsub : ((s.indexOf a.1 : ℤ) - (s.indexOf b.1 : ℤ)) ≠ 0 := by
      intro h
      exact hne (by exact_mod_cast sub_eq_zero.1 h)
    have := Int.natAbs_pos.2 hsub
    omega

theorem foldl_mono_init {α : Type} (g : ℕ → α → ℕ) (hg : ∀ d x, d ≤ g d x) :
    ∀ (l : List α) (d : ℕ), d ≤ l.foldl g d
  | [], d => le_refl d
  | x :: t, d => le_trans (hg d x) (foldl_mono_init g hg t (g d x))

theorem foldl_le_of_mem {α : Type} (g : ℕ → α → ℕ) (hg : ∀ d x, d ≤ g d x)
    (c : ℕ) (x0 : α) (hx : ∀ d, c ≤ g d x0) (l : List α) (d : ℕ) (hmem : x0 ∈ l) :
    c ≤ l.foldl g d := by
  induction l generalizing d with
  | nil => cases hmem
  | cons x t ih =>
    rcases List.mem_cons.1 hmem with rfl | hmem2
    · exact le_trans (hx d) (foldl_mono_init g hg t (g d x0))
    · exact ih (g d x) hmem2

theorem get_d_max_dist_ge (s : Segment) (matching : List Token)
    (i j : ℕ) (x y : Token) (hij : i < j)
    (hx : (i, x) ∈ s.enum) (hy : (j, y) ∈ s.enum)
    (hxm : x ∈ matching) (hym : y ∈ matching) :
    j - i ≤ get_d_max_dist s matching := by
  unfold get_d_max_dist
  have hg2 : ∀ (p : ℕ × Token) (d2 : ℕ) (q : ℕ × Token),
      d2 ≤ (if p.1 < q.1 ∧ p.2 ∈ matching ∧ q.2 ∈ matching then max d2 (q.1 - p.1)
            else d2) := by
    intro p d2 q
    split
    · exact le_max_left _ _
    · exact le_refl _
  refine foldl_le_of_mem _ (fun d p => foldl_mono_init _ (hg2 p) s.enum d) (j - i) (i, x)
    (fun d => ?_) s.enum 0 hx
  refine foldl_le_of_mem _ (hg2 (i, x)) (j - i) (j, y) (fun d2 => ?_) s.enum d hy
  rw [if_pos ⟨hij, hxm, hym⟩]
  exact le_max_right _ _

theorem get_d_max_dist_pos (s : Segment) (matching : List Token)
    (x y : Token) (hx : x ∈ s) (hy : y ∈ s) (hxm : x ∈ matching) (hym : y ∈ matching)
    (hxy : x ≠ y) : 1 ≤ get_d_max_dist s matching := by
  have hne := indexOf_ne_of_ne s x y hx hy hxy
  rcases Nat.lt_or_ge (s.indexOf x) (s.indexOf y) with hlt | hge
  · have := get_d_max_dist_ge s matching _ _ x y hlt (indexOf_mem_enum s x hx)
      (indexOf_mem_enum s y hy) hxm hym
    omega
  · have hlt2 : s.indexOf y < s.indexOf x := by omega
    have := get_d_max_dist_ge s matching _ _ y x hlt2 (indexOf_mem_enum s y hy)
      (indexOf_mem_enum s x hx) hym hxm
    omega

theorem matching_two (s1 s2 : Segment) (h2 : 2 ≤ (matchingTokens s1 s2).length) :
    ∃ x y, x ∈ matchingTokens s1 s2 ∧ y ∈ matchingTokens s1 s2 ∧ x ≠ y := by
  have hnod := nodup_matchingTokens s1 s2
  rcases hm : matchingTokens s1 s2 with _ | ⟨x, _ | ⟨y, t⟩⟩
  · exfalso; rw [hm] at h2; simp at h2
  · exfalso; rw [hm] at h2; simp at h2
  · rw [hm] at hnod
    rcases List.nodup_cons.1 hnod with ⟨hnx, _⟩
    refine ⟨x, y, ?_, ?_, ?_⟩
    · exact List.mem_cons_self _ _
    · exact List.mem_cons_of_mem _ (List.mem_cons_self _ _)
    · exact fun h => hnx (h ▸ List.mem_cons_self _ _)

/-! ### Behaviour of the pairwise scorer -/

/-- C8: for all Segments whose token-set intersection has fewer than 2 elements, and any
Frequency Maps and method, `tesserae_score` returns exactly the int `0` (the gate at the
top of the function fires before any frequency lookup). -/
theorem tesserae_score_few_matching_eq_zero (s1 s2 : Segment) (f1 f2 : FreqMap) (m : Method)
    (h : (matchingTokens s1 s2).length < 2) :
    tesserae_score s1 s2 f1 f2 m = .ok .int0 := by
  simp only [tesserae_score]
  rw [if_pos h]

/-- C5: for every pair of Segments sharing at least two tokens, with both methods and
well-formed Frequency Maps (every token of each segment present with positive weight),
`tesserae_score` returns a score and in particular never raises a division error: the
combined distance `d_t + d_s` is provably at least `2` on such inputs, so the
`d_t + d_s == 0` division failure is unreachable. -/
theorem tesserae_score_ok_of_two_matching (s1 s2 : Segment) (f1 f2 : FreqMap) (m : Method)
    (h2 : 2 ≤ (matchingTokens s1 s2).length)
    (hcov1 : ∀ w ∈ s1, covPos f1 w) (hcov2 : ∀ w ∈ s2, covPos f2 w) :
    ∃ sc, tesserae_score s1 s2 f1 f2 m = .ok sc := by
  have hne : matchingTokens s1 s2 ≠ [] := by
    intro hnil
    rw [hnil] at h2
    simp at h2
  have hcovm1 : ∀ w ∈ matchingTokens s1 s2, covPos f1 w :=
    fun w hw => hcov1 w ((mem_matchingTokens s1 s2 w).1 hw).1
  have hcovm2 : ∀ w ∈ matchingTokens s1 s2, covPos f2 w :=
    fun w hw => hcov2 w ((mem_matchingTokens s1 s2 w).1 hw).2
  obtain ⟨ft, hft, _, hftpos⟩ := invSum_ok f1 _ hcovm1
  obtain ⟨fs, hfs, _, hfspos⟩ := invSum_ok f2 _ hcovm2
  have hnum : 0 < ft + fs := add_pos (hftpos hne) (hfspos hne)
  simp only [tesserae_score]
  rw [if_neg (by omega), hft, hfs]
  cases m with
  | min_freq =>
    have hd1 : 2 ≤ s1.dedup.length := le_trans h2 (matchingTokens_length_le s1 s2)
    have hd2 : 2 ≤ s2.dedup.length := le_trans h2 (matchingTokens_length_le_right s1 s2)
    obtain ⟨d1, hd1e, hd1pos⟩ := get_d_min_freq_ok s1 f1 hcov1 hd1
    obtain ⟨d2, hd2e, hd2pos⟩ := get_d_min_freq_ok s2 f2 hcov2 hd2
    simp only [distPair, hd1e, hd2e]
    rw [if_neg (by omega)]
    have hr : 0 < (ft + fs) / ((d1 + d2 : ℕ) : ℚ) :=
      div_pos hnum (by exact_mod_cast Nat.lt_of_lt_of_le Nat.zero_lt_one (by omega))
    rw [if_neg (not_le.2 hr)]
    exact ⟨_, rfl⟩
  | max_dist =>
    obtain ⟨x, y, hxm, hym, hxy⟩ := matching_two s1 s2 h2
    have hx1 : x ∈ s1 := ((mem_matchingTokens s1 s2 x).1 hxm).1
    have hx2 : x ∈ s2 := ((mem_matchingTokens s1 s2 x).1 hxm).2
    have hy1 : y ∈ s1 := ((mem_matchingTokens s1 s2 y).1 hym).1
    have hy2 : y ∈ s2 := ((mem_matchingTokens s1 s2 y).1 hym).2
    have hdt := get_d_max_dist_pos s1 (matchingTokens s1 s2) x y hx1 hy1 hxm hym hxy
    have hds := get_d_max_dist_pos s2 (matchingTokens s1 s2) x y hx2 hy2 hxm hym hxy
    simp only [distPair]
    rw [if_neg (by omega)]
    have hr : 0 < (ft + fs) /
        ((get_d_max_dist s1 (matchingTokens s1 s2) +
          get_d_max_dist s2 (matchingTokens s1 s2) : ℕ) : ℚ) :=
      div_pos hnum (by exact_mod_cast Nat.lt_of_lt_of_le Nat.zero_lt_one (by omega))
    rw [if_neg (not_le.2 hr)]
    exact ⟨_, rfl⟩

/-- C6: for every pair of Segments and well-formed Frequency Maps and either method,
swapping both Segments and both Frequency Maps together reproduces the same result:
`tesserae_score s1 s2 f1 f2 m = tesserae_score s2 s1 f2 f1 m`. -/
theorem tesserae_score_swap_invariant (s1 s2 : Segment) (f1 f2 : FreqMap) (m : Method)
    (hcov1 : ∀ w ∈ s1, covPos f1 w) (hcov2 : ∀ w ∈ s2, covPos f2 w) :
    tesserae_score s1 s2 f1 f2 m = tesserae_score s2 s1 f2 f1 m := by
  simp only [tesserae_score]
  rw [← matchingTokens_comm s1 s2]
  by_cases hlen : (matchingTokens s1 s2).length < 2
  · rw [if_pos hlen, if_pos hlen]
  · rw [if_neg hlen, if_neg hlen]
    have hcovm1 : ∀ w ∈ matchingTokens s1 s2, covPos f1 w :=
      fun w hw => hcov1 w ((mem_matchingTokens s1 s2 w).1 hw).1
    have hcovm2 : ∀ w ∈ matchingTokens s1 s2, covPos f2 w :=
      fun w hw => hcov2 w ((mem_matchingTokens s1 s2 w).1 hw).2
    obtain ⟨ft, hft, _, _⟩ := invSum_ok f1 _ hcovm1
    obtain ⟨fs, hfs, _, _⟩ := invSum_ok f2 _ hcovm2
    rw [hft, hfs]
    cases m with
    | min_freq =>
      have hd1 : 2 ≤ s1.dedup.length := by
        have := matchingTokens_length_le s1 s2
        omega
      have hd2 : 2 ≤ s2.dedup.length := by
        have := matchingTokens_length_le_right s1 s2
        omega
      obtain ⟨d1, hd1e, _⟩ := get_d_min_freq_ok s1 f1 hcov1 hd1
      obtain ⟨d2, hd2e, _⟩ := get_d_min_freq_ok s2 f2 hcov2 hd2
      simp only [distPair, hd1e, hd2e]
      rw [Nat.add_comm d2 d1, add_comm fs ft]
    | max_dist =>
      simp only [distPair]
      rw [Nat.add_comm (get_d_max_dist s2 (matchingTokens s1 s2))
        (get_d_max_dist s1 (matchingTokens s1 s2)), add_comm fs ft]

/-- C3 (amended): every score `tesserae_score` returns is a well-defined real number — the
argument of `math.log` is strictly positive (`0 < ratioOf`).  The score itself is NOT
always non-negative: `log r < 0` whenever the ratio `r < 1`, see the counterexample
`tesserae_score_negative_score_example`. -/
theorem tesserae_score_ratio_pos (s1 s2 : Segment) (f1 f2 : FreqMap) (m : Method) (sc : Score)
    (h : tesserae_score s1 s2 f1 f2 m = .ok sc) : 0 < sc.ratioOf := by
  simp only [tesserae_score] at h
  split at h
  · cases h
    simp [Score.ratioOf]
  · split at h
    · exact Except.noConfusion h
    · split at h
      · exact Except.noConfusion h
      · split at h
        · exact Except.noConfusion h
        · split at h
          · exact Except.noConfusion h
          · split at h
            · exact Except.noConfusion h
            · cases h
              simp only [Score.ratioOf]
              exact lt_of_not_le (by assumption)

/-- C10: if two Segments share at least two tokens and some shared token is absent from one
of the (positively weighted) Frequency Maps, `tesserae_score` fails with a `KeyError`
identifying a missing token, rather than returning a score computed with a silently
defaulted zero frequency. -/
theorem tesserae_score_missing_freq_keyError (s1 s2 : Segment) (f1 f2 : FreqMap) (m : Method)
    (h2 : 2 ≤ (matchingTokens s1 s2).length)
    (hpos1 : ∀ p ∈ f1, 0 < p.2) (hpos2 : ∀ p ∈ f2, 0 < p.2)
    (hmiss : ∃ w ∈ matchingTokens s1 s2,
      List.lookup w f1 = none ∨ List.lookup w f2 = none) :
    ∃ w ∈ matchingTokens s1 s2,
      (List.lookup w f1 = none ∨ List.lookup w f2 = none) ∧
      tesserae_score s1 s2 f1 f2 m = .error (.keyError w) := by
  simp only [tesserae_score]
  rw [if_neg (by omega)]
  by_cases hf1 : ∃ w ∈ matchingTokens s1 s2, List.lookup w f1 = none
  · obtain ⟨w, hw, hnone, herr⟩ := invSum_keyError f1 _ hpos1 hf1
    refine ⟨w, hw, Or.inl hnone, ?_⟩
    rw [herr]
  · have hcovm1 : ∀ w ∈ matchingTokens s1 s2, covPos f1 w := by
      intro w hw
      cases hq : List.lookup w f1 with
      | none => exact absurd ⟨w, hw, hq⟩ hf1
      | some q => exact ⟨q, hq, hpos1 (w, q) (mem_of_lookup_eq_some hq)⟩
    obtain ⟨ft, hft, _, _⟩ := invSum_ok f1 _ hcovm1
    have hf2 : ∃ w ∈ matchingTokens s1 s2, List.lookup w f2 = none := by
      rcases hmiss with ⟨w, hw, hnone | hnone⟩
      · exact absurd ⟨w, hw, hnone⟩ hf1
      · exact ⟨w, hw, hnone⟩
    obtain ⟨w, hw, hnone, herr⟩ := invSum_keyError f2 _ hpos2 hf2
    refine ⟨w, hw, Or.inr hnone, ?_⟩
    rw [hft, herr]

/-! ### Behaviour of the ranker and evaluation loop -/

theorem baselineRows_mem (trg : List Segment) (sf tf : FreqMap) (at_ : ℕ) (m : Method) :
    ∀ (l : List (ℕ × Segment)) (rows : List (ℕ × List (ℕ × Score × ℕ))),
      baselineRows trg sf tf at_ m l = .ok rows →
      ∀ p ∈ rows, ∃ s1 ts, candScores s1 sf tf m trg = .ok ts ∧
        p.2 = rowOutput s1 trg ts (rankIdxs ts at_) := by
  intro l
  induction l with
  | nil =>
    intro rows hrows p hp
    cases hrows
    cases hp
  | cons hd rest ih =>
    rcases hd with ⟨idx, s1⟩
    intro rows hrows p hp
    simp only [baselineRows] at hrows
    split at hrows
    · exact Except.noConfusion hrows
    next ts hts =>
      split at hrows
      · exact Except.noConfusion hrows
      next tail htail =>
        cases hrows
        rcases List.mem_cons.1 hp with rfl | hp2
        · exact ⟨s1, ts, hts, rfl⟩
        · exact ih tail htail p hp2

/-- C9: every row of Scored Candidates returned by `tesserae_baseline` has length at most
`at`, contains only candidates with strictly positive score (`1 < ratioOf`, i.e.
`log ratio > 0`), and is ordered by score descending. -/
theorem ranker_output_sorted_bounded (src trg : List Segment) (sf tf : FreqMap) (at_ : ℕ)
    (m : Method) (r : ℚ) (out : List (List (ℕ × Score × ℕ)))
    (h : tesserae_baseline src trg sf tf at_ m = .ok (r, out)) :
    ∀ row ∈ out, row.length ≤ at_ ∧ (∀ t ∈ row, 1 < (t.2.1).ratioOf) ∧
      row.Pairwise (fun a b => (b.2.1).ratioOf ≤ (a.2.1).ratioOf) := by
  simp only [tesserae_baseline] at h
  split at h
  · exact Except.noConfusion h
  next rows hrows =>
    split at h
    · exact Except.noConfusion h
    · cases h
      intro row hrow
      rcases List.mem_map.1 hrow with ⟨p, hp, rfl⟩
      obtain ⟨s1, ts, _, hrow2⟩ := baselineRows_mem trg sf tf at_ _ src.enum rows hrows p hp
      rw [hrow2]
      refine ⟨?_, ?_, ?_⟩
      · rw [rowOutput, List.length_map]
        exact rankIdxs_length_le ts at_
      · intro t ht
        rcases List.mem_map.1 ht with ⟨i, hi, rfl⟩
        exact mem_rankIdxs_pos ts at_ i hi
      · rw [rowOutput, List.pairwise_map]
        refine (rankIdxs_pairwise ts at_).imp ?_
        intro i j hij
        rcases hij with hlt | ⟨heq, _⟩
        · exact le_of_lt hlt
        · exact le_of_eq heq

/-- C4 (amended): in every returned row of Scored Candidates the order is strictly
descending in the lexicographic sense (score descending, and candidates with EQUAL scores
in reverse original candidate order): the ascending stable argsort is reversed by
`[::-1]`, which flips the order of ties, so ties do not keep original candidate order —
see the counterexample `ranker_equal_scores_not_original_order`. -/
theorem ranker_row_order (src trg : List Segment) (sf tf : FreqMap) (at_ : ℕ)
    (m : Method) (r : ℚ) (out : List (List (ℕ × Score × ℕ)))
    (h : tesserae_baseline src trg sf tf at_ m = .ok (r, out)) :
    ∀ row ∈ out, row.Pairwise (fun a b =>
      (b.2.1).ratioOf < (a.2.1).ratioOf ∨
      ((b.2.1).ratioOf = (a.2.1).ratioOf ∧ b.1 < a.1)) := by
  simp only [tesserae_baseline] at h
  split at h
  · exact Except.noConfusion h
  next rows hrows =>
    split at h
    · exact Except.noConfusion h
    · cases h
      intro row hrow
      rcases List.mem_map.1 hrow with ⟨p, hp, rfl⟩
      obtain ⟨s1, ts, _, hrow2⟩ := baselineRows_mem trg sf tf at_ _ src.enum rows hrows p hp
      rw [hrow2, rowOutput, List.pairwise_map]
      refine (rankIdxs_pairwise ts at_).imp ?_
      intro i j hij
      exact hij

theorem baselineRows_hits_mono (trg : List Segment) (sf tf : FreqMap) (m : Method)
    (a1 a2 : ℕ) (h12 : a1 ≤ a2) :
    ∀ (l : List (ℕ × Segment)) (rows1 rows2 : List (ℕ × List (ℕ × Score × ℕ))),
      baselineRows trg sf tf a1 m l = .ok rows1 →
      baselineRows trg sf tf a2 m l = .ok rows2 →
      (rows1.map Prod.fst).sum ≤ (rows2.map Prod.fst).sum := by
  intro l
  induction l with
  | nil =>
    intro rows1 rows2 h1 h2
    cases h1
    cases h2
    exact le_refl _
  | cons hd rest ih =>
    rcases hd with ⟨idx, s1⟩
    intro rows1 rows2 h1 h2
    simp only [baselineRows] at h1 h2
    split at h1
    · exact Except.noConfusion h1
    next ts hts =>
      split at h2
      next e he =>
        rw [he] at hts
        exact Except.noConfusion hts
      next ts2 hts2 =>
        rw [hts] at hts2
        cases hts2
        split at h1
        · exact Except.noConfusion h1
        next tail1 htail1 =>
          cases h1
          split at h2
          · exact Except.noConfusion h2
          next tail2 htail2 =>
            cases h2
            simp only [List.map_cons, List.sum_cons]
            have hmono := ih tail1 tail2 htail1 htail2
            have hhit : (if idx ∈ rankIdxs ts a1 then (1 : ℕ) else 0) ≤
                (if idx ∈ rankIdxs ts a2 then (1 : ℕ) else 0) := by
              by_cases hin : idx ∈ rankIdxs ts a1
              · rw [if_pos hin, if_pos (rankIdxs_subset ts h12 hin)]
              · rw [if_neg hin]
                exact Nat.zero_le _
            omega

/-- C7: for a fixed method, gold set and candidate pool, the recall that
`tesserae_baseline` returns is monotonically non-decreasing in the cutoff `at`. -/
theorem recall_monotone (src trg : List Segment) (sf tf : FreqMap) (m : Method)
    (a1 a2 : ℕ) (h12 : a1 ≤ a2) (r1 r2 : ℚ)
    (o1 o2 : List (List (ℕ × Score × ℕ)))
    (h1 : tesserae_baseline src trg sf tf a1 m = .ok (r1, o1))
    (h2 : tesserae_baseline src trg sf tf a2 m = .ok (r2, o2)) : r1 ≤ r2 := by
  simp only [tesserae_baseline] at h1 h2
  split at h1
  · exact Except.noConfusion h1
  next rows1 hrows1 =>
    split at h1
    · exact Except.noConfusion h1
    next hlen =>
      cases h1
      split at h2
      · exact Except.noConfusion h2
      next rows2 hrows2 =>
        split at h2
        · exact Except.noConfusion h2
        · cases h2
          have hsum := baselineRows_hits_mono trg sf tf .min_freq a1 a2 h12 src.enum
            rows1 rows2 hrows1 hrows2
          have hlenpos : 0 < (src.length : ℚ) := by
            have h0 : 0 < src.length := Nat.pos_of_ne_zero hlen
            exact_mod_cast h0
          rw [div_le_div_iff_of_pos_right hlenpos]
          exact_mod_cast hsum

/-! ### Claim-level concrete theorems, counterexamples and witnesses -/

/-- C1: the `method` parameter of `tesserae_baseline` is dead — the inner call
`tesserae_score(s1, s2, src_freqs, trg_freqs)` omits it, so the loop always scores with
the Python default `min_freq`.  First conjunct: the loop result is independent of the
requested method on ALL inputs.  Second conjunct: on a concrete input where the two
heuristics rank the candidates differently, the loop as written disagrees with the
spec-modelled loop `tesserae_baseline_spec` that forwards the method (the code reports
recall `1` for `max_dist` where genuine `max_dist` scoring yields recall `0`). -/
theorem tesserae_baseline_ignores_method :
    (∀ (src trg : List Segment) (sf tf : FreqMap) (a : ℕ) (m1 m2 : Method),
      tesserae_baseline src trg sf tf a m1 = tesserae_baseline src trg sf tf a m2) ∧
    tesserae_baseline_spec [[0, 1]] [[0, 2, 1], [0, 1, 2]] [(0, 1), (1, 2)]
        [(2, 1), (0, 2), (1, 3)] 1 .max_dist ≠
      tesserae_baseline [[0, 1]] [[0, 2, 1], [0, 1, 2]] [(0, 1), (1, 2)]
        [(2, 1), (0, 2), (1, 3)] 1 .max_dist :=
  ⟨fun _ _ _ _ _ _ _ => rfl, by with_unfolding_all decide⟩

/-- C2 (counterexample): on the spec example segment `[a, b, a, c]` (tokens coded
`a ↦ 0, b ↦ 1, c ↦ 2`) with frequencies `{a: 1, b: 5, c: 10}`, `get_d_min_freq` does NOT
return `2` as the claim states. -/
theorem get_d_min_freq_spec_example_refuted :
    get_d_min_freq [0, 1, 0, 2] [(0, 1), (1, 5), (2, 10)] ≠ .ok 2 := by decide

/-- C2 (amended): on the spec example `['a','b','a','c']` with `{a: 1, b: 5, c: 10}`, the
two least frequent distinct tokens selected are `a` (frequency 1) and `b` (frequency 5),
whose first occurrences sit at positions 0 and 1, so the returned distance is `1`. -/
theorem get_d_min_freq_spec_example_value :
    get_d_min_freq [0, 1, 0, 2] [(0, 1), (1, 5), (2, 10)] = .ok 1 := by decide

/-- C3 (counterexample): the score is not always non-negative.  For the identical
two-token segments `[a, b]` with frequencies `{a: 10, b: 10}` on both sides the scorer
returns `log (1/5)`, and `log (1/5) < 0` (the log argument `1/5` is below `1`, refuting
`Score.nonneg`). -/
theorem tesserae_score_negative_score_example :
    tesserae_score [0, 1] [0, 1] [(0, 10), (1, 10)] [(0, 10), (1, 10)] .min_freq
      = .ok (.logR (1 / 5)) ∧ ¬ (Score.logR (1 / 5)).nonneg :=
  ⟨by with_unfolding_all decide, by with_unfolding_all decide⟩

/-- C3 (witness): `tesserae_score_ratio_pos` applied at a concrete input. -/
theorem tesserae_score_ratio_pos_witness :
    tesserae_score [0, 1] [0, 1] [(0, 10), (1, 10)] [(0, 10), (1, 10)] .min_freq
      = .ok (.logR (1 / 5)) ∧ 0 < (Score.logR (1 / 5)).ratioOf :=
  ⟨by with_unfolding_all decide,
   tesserae_score_ratio_pos [0, 1] [0, 1] [(0, 10), (1, 10)] [(0, 10), (1, 10)] .min_freq
     (.logR (1 / 5)) (by with_unfolding_all decide)⟩

/-- C4 (counterexample): two identical candidates receive equal scores `log (3/2)`, yet
the returned row lists candidate `1` before candidate `0` — the reversal of the stable
ascending argsort puts equal-scored candidates in REVERSE original order, refuting the
claim that ties keep original candidate order. -/
theorem ranker_equal_scores_not_original_order :
    tesserae_baseline [[0, 1]] [[0, 1], [0, 1]] [(0, 1), (1, 2)] [(0, 1), (1, 2)] 2 .min_freq
      = .ok (1, [[(1, Score.logR (3 / 2), 2), (0, Score.logR (3 / 2), 2)]]) ∧
    ¬ ([(1, Score.logR (3 / 2), 2), (0, Score.logR (3 / 2), 2)] :
        List (ℕ × Score × ℕ)).Pairwise (fun a b => a.2.1 = b.2.1 → a.1 < b.1) :=
  ⟨by with_unfolding_all decide, by with_unfolding_all decide⟩

/-- C4 (witness): `ranker_row_order` applied at the concrete tie input. -/
theorem ranker_row_order_witness :
    tesserae_baseline [[0, 1]] [[0, 1], [0, 1]] [(0, 1), (1, 2)] [(0, 1), (1, 2)] 2 .min_freq
      = .ok (1, [[(1, Score.logR (3 / 2), 2), (0, Score.logR (3 / 2), 2)]]) ∧
    ∀ row ∈ [[(1, Score.logR (3 / 2), 2), (0, Score.logR (3 / 2), 2)]],
      row.Pairwise (fun a b => (b.2.1).ratioOf < (a.2.1).ratioOf ∨
        ((b.2.1).ratioOf = (a.2.1).ratioOf ∧ b.1 < a.1)) :=
  ⟨by with_unfolding_all decide,
   ranker_row_order [[0, 1]] [[0, 1], [0, 1]] [(0, 1), (1, 2)] [(0, 1), (1, 2)] 2 .min_freq
     1 [[(1, Score.logR (3 / 2), 2), (0, Score.logR (3 / 2), 2)]]
     (by with_unfolding_all decide)⟩

/-- C5 (witness): `tesserae_score_ok_of_two_matching` applied at a concrete input. -/
theorem tesserae_score_ok_of_two_matching_witness :
    2 ≤ (matchingTokens [0, 1, 2] [0, 1, 3]).length ∧
    ∃ sc, tesserae_score [0, 1, 2] [0, 1, 3] [(0, 1), (1, 2), (2, 3)] [(0, 1), (1, 2), (3, 4)]
      .max_dist = .ok sc :=
  ⟨by decide,
   tesserae_score_ok_of_two_matching [0, 1, 2] [0, 1, 3] [(0, 1), (1, 2), (2, 3)]
     [(0, 1), (1, 2), (3, 4)] .max_dist (by decide) (by decide) (by decide)⟩

/-- C6 (witness): `tesserae_score_swap_invariant` applied at a concrete input. -/
theorem tesserae_score_swap_invariant_witness :
    (∀ w ∈ ([0, 1] : Segment), covPos [(0, 1), (1, 2)] w) ∧
    tesserae_score [0, 1] [0, 2, 1] [(0, 1), (1, 2)] [(0, 2), (1, 3), (2, 1)] .min_freq =
      tesserae_score [0, 2, 1] [0, 1] [(0, 2), (1, 3), (2, 1)] [(0, 1), (1, 2)] .min_freq :=
  ⟨by decide,
   tesserae_score_swap_invariant [0, 1] [0, 2, 1] [(0, 1), (1, 2)] [(0, 2), (1, 3), (2, 1)]
     .min_freq (by decide) (by decide)⟩

/-- C7 (witness): `recall_monotone` applied to two concrete successful runs with cutoffs
`1 ≤ 2`. -/
theorem recall_monotone_witness :
    (1 : ℕ) ≤ 2 ∧ (1 : ℚ) ≤ 1 :=
  ⟨by decide,
   recall_monotone [[0, 1]] [[0, 2, 1], [0, 1, 2]] [(0, 1), (1, 2)] [(2, 1), (0, 2), (1, 3)]
     .min_freq 1 2 (by decide) 1 1 [[(0, Score.logR (7 / 6), 2)]] [[(0, Score.logR (7 / 6), 2)]]
     (by with_unfolding_all decide) (by with_unfolding_all decide)⟩

/-- C8 (witness): `tesserae_score_few_matching_eq_zero` applied at a concrete input with
disjoint segments. -/
theorem tesserae_score_few_matching_eq_zero_witness :
    (matchingTokens [0] [1]).length < 2 ∧
    tesserae_score [0] [1] [] [] .min_freq = .ok .int0 :=
  ⟨by decide, tesserae_score_few_matching_eq_zero [0] [1] [] [] .min_freq (by decide)⟩

/-- C9 (witness): `ranker_output_sorted_bounded` applied at a concrete run. -/
theorem ranker_output_sorted_bounded_witness :
    tesserae_baseline [[0, 1]] [[0, 2, 1], [0, 1, 2]] [(0, 1), (1, 2)] [(2, 1), (0, 2), (1, 3)]
      1 .min_freq = .ok (1, [[(0, Score.logR (7 / 6), 2)]]) ∧
    ∀ row ∈ [[(0, Score.logR (7 / 6), 2)]], row.length ≤ 1 ∧
      (∀ t ∈ row, 1 < (t.2.1).ratioOf) ∧
      row.Pairwise (fun a b => (b.2.1).ratioOf ≤ (a.2.1).ratioOf) :=
  ⟨by with_unfolding_all decide,
   ranker_output_sorted_bounded [[0, 1]] [[0, 2, 1], [0, 1, 2]] [(0, 1), (1, 2)]
     [(2, 1), (0, 2), (1, 3)] 1 .min_freq 1 [[(0, Score.logR (7 / 6), 2)]]
     (by with_unfolding_all decide)⟩

/-- C10 (witness): `tesserae_score_missing_freq_keyError` applied at a concrete input
where the shared token `1` is absent from the first Frequency Map. -/
theorem tesserae_score_missing_freq_keyError_witness :
    2 ≤ (matchingTokens [0, 1] [0, 1]).length ∧
    ∃ w ∈ matchingTokens [0, 1] [0, 1],
      (List.lookup w ([(0, 1)] : FreqMap) = none ∨
        List.lookup w ([(0, 1), (1, 1)] : FreqMap) = none) ∧
      tesserae_score [0, 1] [0, 1] [(0, 1)] [(0, 1), (1, 1)] .min_freq = .error (.keyError w) :=
  ⟨by decide,
   tesserae_score_missing_freq_keyError [0, 1] [0, 1] [(0, 1)] [(0, 1), (1, 1)] .min_freq
     (by decide) (by decide) (by decide) (by decide)⟩
